import Mathlib

/-!
# Verification of the `html-parser` incremental tree-construction core

Shallow embedding of `src/types/html.rs` (the `Html` tree, its five mutating
operations, and its `Display` rendering) together with the `Tag`, `TagType`
and `TagClosingStatus` values it consumes.  Rust's in-place mutation is
modelled by returning the updated tree (paired with the returned value where
the Rust method returns one); the `safe_unreachable!` fault in `push_node`
is modelled by `Option` (`none` = the loud internal-invariant fault).
-/

/-- Modelled from the spec: the `Tag` value (defined in the missing
`src/types/tag.rs`) is an opaque pair of a `name` and its attributes; its
display contract is "name plus attributes joined with the markup's attribute
syntax", which we embed as the pre-rendered attribute suffix `attrs`
(including its leading separator, empty when there are no attributes). -/
structure Tag where
  name : String
  attrs : String
deriving Repr

/-- Modelled from the spec: the display contract of a `Tag` value
(`format!("{tag}")` in the Rust source): name followed by the rendered
attributes. -/
def Tag.display (t : Tag) : String :=
  t.name ++ t.attrs

/-- Modelled from the spec (type defined in the missing `src/types/tag.rs`):
the tri-state closing classification of a tag use-site. -/
inductive TagType
  | Opened
  | Closed
  | SelfClosing
deriving Repr

/-- Modelled from the spec (defined in the missing `src/types/tag.rs`):
`TagType::is_open` holds exactly for `Opened`. -/
def TagType.is_open : TagType → Bool
  | .Opened => true
  | .Closed => false
  | .SelfClosing => false

/-- Modelled from the spec (type defined in the missing `src/types/tag.rs`):
the ternary outcome of the closing-tag search.  `Full` is the source's name
for the spec's `NoOpenTag` (all tags already closed), `WrongName` carries the
name of the open tag that was found instead. -/
inductive TagClosingStatus
  | Success
  | Full
  | WrongName (expected : String)
deriving Repr

/-- The `Tag` value under the name the spec uses at the interface boundary,
so that it stays referable inside the `Html` namespace (where `Tag` denotes
the tree constructor). -/
abbrev TagValue := Tag

/-- The `Html` tree of `src/types/html.rs`: six variants (`Vec` is the
source's name for the sibling `Sequence`). -/
inductive Html
  | Comment (content : String) (full : Bool)
  | Document (name : String) (attr : Option String)
  | Empty
  | Tag (tag : Tag) (full : TagType) (child : Html)
  | Text (s : String)
  | Vec (xs : List Html)
deriving Repr

namespace Html

/-- `Html::from_char`: a tree holding one character of text. -/
def from_char (ch : Char) : Html :=
  .Text (String.singleton ch)

/-- `Html::is_empty`. -/
def is_empty : Html → Bool
  | .Empty => true
  | _ => false

/-- `Html::is_pushable`: whether the next datum may be pushed into this node
(differs between character input and node input). -/
def is_pushable (t : Html) (is_char : Bool) : Bool :=
  match t with
  | .Empty | .Vec _ => true
  | .Tag _ full _ => full.is_open
  | .Document _ _ => false
  | .Text _ => is_char
  | .Comment _ full => !full

mutual

/-- `Html::is_comment`: the fringe ends in a still-open comment. -/
def is_comment : Html → Bool
  | .Comment _ full => !full
  | .Empty => false
  | .Text _ => false
  | .Document _ _ => false
  | .Tag _ full child => full.is_open && is_comment child
  | .Vec xs => is_comment_last xs

/-- `vec.last().is_some_and(Self::is_comment)` in `Html::is_comment`. -/
def is_comment_last : List Html → Bool
  | [] => false
  | [x] => is_comment x
  | _ :: y :: rest => is_comment_last (y :: rest)

end

mutual

/-- `Html::close_comment`: mark the currently-open comment as full.  Returns
the updated tree and the boolean the Rust method returns. -/
def close_comment : Html → Html × Bool
  | .Comment content full =>
      if full then (.Comment content full, false)
      else (.Comment content true, true)
  | .Text s => (.Text s, false)
  | .Empty => (.Empty, false)
  | .Document n a => (.Document n a, false)
  | .Tag tag full child =>
      if full.is_open then
        match close_comment child with
        | (c, b) => (.Tag tag full c, b)
      else (.Tag tag full child, false)
  | .Vec xs =>
      match close_comment_last xs with
      | (ys, b) => (.Vec ys, b)

/-- `vec.last_mut().map_or_else(|| false, Self::close_comment)`:
act on the last element of a sequence, keeping the others. -/
def close_comment_last : List Html → List Html × Bool
  | [] => ([], false)
  | [x] =>
      match close_comment x with
      | (y, b) => ([y], b)
  | x :: y :: rest =>
      match close_comment_last (y :: rest) with
      | (ys, b) => (x :: ys, b)

end

mutual

/-- `Html::close_tag_aux`: find the innermost opened tag along the fringe and
close it if its name matches.  On a `WrongName` mismatch the Rust code
`take`s the tag's name (leaving `String::default()`, the empty string) to
build the status, so the updated tree carries an emptied name. -/
def close_tag_aux : Html → String → Html × TagClosingStatus
  | .Tag tag .Opened child, name =>
      match close_tag_aux child name with
      | (c, .Full) =>
          if tag.name == name then
            (.Tag tag .Closed c, .Success)
          else
            (.Tag ⟨"", tag.attrs⟩ .Opened c, .WrongName tag.name)
      | (c, st) => (.Tag tag .Opened c, st)
  | .Vec xs, name =>
      match close_tag_aux_last xs name with
      | (ys, st) => (.Vec ys, st)
  | t, _ => (t, .Full)

/-- `vec.last_mut().map_or(TagClosingStatus::Full, |child| child.close_tag_aux(name))`. -/
def close_tag_aux_last : List Html → String → List Html × TagClosingStatus
  | [], _ => ([], .Full)
  | [x], name =>
      match close_tag_aux x name with
      | (y, st) => ([y], st)
  | x :: y :: rest, name =>
      match close_tag_aux_last (y :: rest) name with
      | (ys, st) => (x :: ys, st)

end

/-- The single-quote character used in the error messages of `Html::close_tag`. -/
def sq : String := "'"

/-- `Html::close_tag`: the public closing operation, mapping the ternary
status to `Ok` or a descriptive error message. -/
def close_tag (t : Html) (name : String) : Html × Except String Unit :=
  match close_tag_aux t name with
  | (u, .Success) => (u, .ok ())
  | (u, .Full) =>
      (u, .error ("Invalid closing tag: Found closing tag for " ++ sq ++ name
        ++ sq ++ " but all tags are already closed."))
  | (u, .WrongName expected) =>
      (u, .error ("Invalid closing tag: Found closing tag for " ++ sq ++ name
        ++ sq ++ " but " ++ sq ++ expected ++ sq ++ " is still open."))

mutual

/-- `Html::push_char`: push one character into the tree. -/
def push_char : Html → Char → Html
  | .Empty, ch => from_char ch
  | .Tag tag .Opened child, ch => .Tag tag .Opened (push_char child ch)
  | .Document n a, ch => .Vec [.Document n a, from_char ch]
  | .Tag tag .Closed child, ch => .Vec [.Tag tag .Closed child, from_char ch]
  | .Tag tag .SelfClosing child, ch => .Vec [.Tag tag .SelfClosing child, from_char ch]
  | .Text s, ch => .Text (s.push ch)
  | .Vec xs, ch => .Vec (push_char_last xs ch)
  | .Comment content full, ch =>
      if full then .Vec [.Comment content full, from_char ch]
      else .Comment (content.push ch) full

/-- The `Html::Vec` arm of `push_char`: recurse into the last element when it
is pushable for a character, otherwise append a fresh text node. -/
def push_char_last : List Html → Char → List Html
  | [], ch => [from_char ch]
  | [x], ch =>
      if x.is_pushable true then [push_char x ch]
      else [x, from_char ch]
  | x :: y :: rest, ch => x :: push_char_last (y :: rest) ch

end

mutual

/-- `Html::push_node`: push a freshly-built node into the tree.  The
`Comment` arm is the `safe_unreachable!` internal-invariant fault, modelled
as `none`. -/
def push_node : Html → Html → Option Html
  | .Empty, node => some node
  | .Tag tag .Opened child, node =>
      (push_node child node).map (fun c => .Tag tag .Opened c)
  | .Text s, node => some (.Vec [.Text s, node])
  | .Document n a, node => some (.Vec [.Document n a, node])
  | .Tag tag .Closed child, node => some (.Vec [.Tag tag .Closed child, node])
  | .Tag tag .SelfClosing child, node => some (.Vec [.Tag tag .SelfClosing child, node])
  | .Vec xs, node => (push_node_last xs node).map .Vec
  | .Comment _ _, _ => none

/-- The `Html::Vec` arm of `push_node`: recurse into the last element when it
is pushable for a node, otherwise append the node as a new sibling. -/
def push_node_last : List Html → Html → Option (List Html)
  | [], node => some [node]
  | [x], node =>
      if x.is_pushable false then (push_node x node).map (fun y => [y])
      else some [x, node]
  | x :: y :: rest, node => (push_node_last (y :: rest) node).map (fun ys => x :: ys)

end

/-- `Html::push_comment`: open a fresh (empty, not yet full) comment. -/
def push_comment (t : Html) : Option Html :=
  push_node t (.Comment "" false)

/-- `Html::push_tag`: open a tag, self-closing when `inline`. -/
def push_tag (t : Html) (tag : TagValue) (inline : Bool) : Option Html :=
  push_node t (.Tag tag (if inline then TagType.SelfClosing else TagType.Opened) .Empty)

mutual

/-- The `Display` implementation for `Html`: render the tree back to markup
text. -/
def render : Html → String
  | .Empty => ""
  | .Tag tag .Closed child =>
      "<" ++ tag.display ++ ">" ++ render child ++ "</" ++ tag.name ++ ">"
  | .Tag tag .Opened child => "<" ++ tag.display ++ ">" ++ render child
  | .Tag tag .SelfClosing _ => "<" ++ tag.display ++ " />"
  | .Document name none =>
      if name.isEmpty then "<!>" else "<!" ++ name ++ " >"
  | .Document name (some attr) => "<!" ++ name ++ " " ++ attr ++ ">"
  | .Text s => s
  | .Vec xs => render_list xs
  | .Comment content full =>
      "<!--" ++ content ++ (if full then "-->" else "")

/-- The `Html::Vec` arm of `Display`: concatenate the renderings in order. -/
def render_list : List Html → String
  | [] => ""
  | x :: rest => render x ++ render_list rest

end

end Html

/-- One event of the driver protocol: the five mutating operations the
external tokenizer may invoke on the tree. -/
inductive Op
  | AppendChar (ch : Char)
  | OpenTag (tag : TagValue) (inline : Bool)
  | CloseTag (name : String)
  | OpenComment
  | CloseComment

/-- Apply one operation to the tree.  Operations whose Rust counterpart can
hit the `safe_unreachable!` fault yield `none` there; `close_tag` returns an
error value but still leaves a tree, so it always yields `some`. -/
def apply_op (t : Html) : Op → Option Html
  | .AppendChar ch => some (t.push_char ch)
  | .OpenTag tag inline => t.push_tag tag inline
  | .CloseTag name => some (t.close_tag name).1
  | .OpenComment => t.push_comment
  | .CloseComment => some (t.close_comment).1

/-- Run a sequence of driver operations from the freshly-initialised
`Empty` tree; `none` when some step faulted. -/
def run (ops : List Op) : Option Html :=
  ops.foldl (fun acc op => acc.bind (fun t => apply_op t op)) (some Html.Empty)

/-- A tree is reachable when some driver run produces it. -/
def Reachable (t : Html) : Prop :=
  ∃ ops : List Op, run ops = some t

namespace Html

/-- Whether the top constructor is the sibling `Vec` (`Sequence`). -/
def is_vec : Html → Bool
  | .Vec _ => true
  | _ => false

/-- A node is inert when no further datum can ever be pushed at it: it is
not a legal recursion point of `push_node` (and, except for `Text`, not of
`push_char` either). -/
def inert_node (t : Html) : Bool :=
  !(t.is_pushable false)

mutual

/-- The `Sequence` well-formedness of the spec: every `Vec` holds at least
two elements and none of its elements is itself a `Vec`. -/
def wf_seq : Html → Bool
  | .Vec xs => decide (2 ≤ xs.length) && wf_seq_list xs
  | .Tag _ _ child => wf_seq child
  | _ => true

/-- Elementwise check for `wf_seq`: no element is a `Vec`, all are
recursively well-formed. -/
def wf_seq_list : List Html → Bool
  | [] => true
  | x :: rest => !(is_vec x) && wf_seq x && wf_seq_list rest

end

mutual

/-- The fringe invariant, in the spec's equivalent form: in every `Vec`,
every element except possibly the last is inert. -/
def fringe_inv : Html → Bool
  | .Tag _ _ child => fringe_inv child
  | .Vec xs => fringe_inv_list xs
  | _ => true

/-- Listwise fringe invariant: all elements but the last are inert, and
all elements recursively satisfy the invariant. -/
def fringe_inv_list : List Html → Bool
  | [] => true
  | [x] => fringe_inv x
  | x :: y :: rest => inert_node x && fringe_inv x && fringe_inv_list (y :: rest)

end

mutual

/-- The number of distinct open paths from the root: maximal descents
through `Opened` tags (through the elements of a `Vec`), each optionally
ending in an open comment.  The fringe invariant says this is at most 1. -/
def open_path_count : Html → Nat
  | .Comment _ full => if full then 0 else 1
  | .Tag _ .Opened child => max 1 (open_path_count child)
  | .Tag _ .Closed _ => 0
  | .Tag _ .SelfClosing _ => 0
  | .Vec xs => open_path_count_list xs
  | _ => 0

/-- Sum of the open-path counts of the elements of a `Vec`. -/
def open_path_count_list : List Html → Nat
  | [] => 0
  | x :: rest => open_path_count x + open_path_count_list rest

end

mutual

/-- The exact recursion path of `push_node` ends on a `Comment` node (of
either fullness): this characterises when `push_node` hits its
`safe_unreachable!` arm. -/
def comment_target : Html → Bool
  | .Comment _ _ => true
  | .Tag _ .Opened child => comment_target child
  | .Vec xs => comment_target_last xs
  | _ => false

/-- `Vec` case of `comment_target`: `push_node` only recurses into the last
element when it is pushable for a node. -/
def comment_target_last : List Html → Bool
  | [] => false
  | [x] => x.is_pushable false && comment_target x
  | _ :: y :: rest => comment_target_last (y :: rest)

end

mutual

/-- The name of the innermost `Opened` tag along the path that
`close_tag_aux` searches, when there is one. -/
def last_open_name : Html → Option String
  | .Tag tag .Opened child => some ((last_open_name child).getD tag.name)
  | .Vec xs => last_open_name_list xs
  | _ => none

/-- `Vec` case of `last_open_name`: look at the last element only. -/
def last_open_name_list : List Html → Option String
  | [] => none
  | [x] => last_open_name x
  | _ :: y :: rest => last_open_name_list (y :: rest)

end

mutual

/-- The tree after `close_tag_aux` fails with `WrongName`: identical to the
input except that the innermost `Opened` tag's name has been `take`n
(replaced by the empty string); its status stays `Opened`. -/
def take_inner_name : Html → Html
  | .Tag tag .Opened child =>
      match last_open_name child with
      | some _ => .Tag tag .Opened (take_inner_name child)
      | none => .Tag ⟨"", tag.attrs⟩ .Opened child
  | .Vec xs => .Vec (take_inner_name_list xs)
  | t => t

/-- `Vec` case of `take_inner_name`: rewrite the last element only. -/
def take_inner_name_list : List Html → List Html
  | [] => []
  | [x] => [take_inner_name x]
  | x :: y :: rest => x :: take_inner_name_list (y :: rest)

end

end Html

/-- A character sequence free of markup syntax: none of its characters is a
markup delimiter. -/
def no_markup (s : String) : Prop :=
  ∀ c ∈ s.data, c ≠ '<' ∧ c ≠ '>'

/-! ## Helper lemmas -/

theorem string_join_cons (a : String) (l : List String) :
    String.join (a :: l) = a ++ String.join l := by
  apply String.ext
  simp [String.join_eq, String.data_append]

theorem string_push_append (acc : String) (c : Char) (l : List Char) :
    (acc.push c) ++ String.mk l = acc ++ String.mk (c :: l) := by
  apply String.ext
  simp [String.data_append, String.data_push, String.mk]

theorem render_list_join (xs : List Html) :
    Html.render_list xs = String.join (xs.map Html.render) := by
  induction xs with
  | nil => simp [Html.render_list, String.join]
  | cons x l ih => rw [List.map_cons, string_join_cons, Html.render_list, ih]

theorem close_comment_last_append (xs : List Html) (x : Html) :
    Html.close_comment_last (xs ++ [x]) =
      (xs ++ [(Html.close_comment x).1], (Html.close_comment x).2) := by
  induction xs with
  | nil =>
      rcases h : Html.close_comment x with ⟨y, b⟩
      simp [Html.close_comment_last, h]
  | cons a l ih =>
      rcases hl : l ++ [x] with _ | ⟨y, rest⟩
      · exact absurd hl (by simp)
      · rw [hl] at ih
        rcases hcc : Html.close_comment_last (y :: rest) with ⟨ys, b⟩
        rw [hcc] at ih
        rw [List.cons_append, hl]
        simp only [Html.close_comment_last, hcc]
        simp_all

theorem close_comment_unchanged_of_false :
    ∀ t : Html, (Html.close_comment t).2 = false → (Html.close_comment t).1 = t := by
  refine Html.close_comment.induct
    (fun t => (Html.close_comment t).2 = false → (Html.close_comment t).1 = t)
    (fun l => (Html.close_comment_last l).2 = false → (Html.close_comment_last l).1 = l)
    ?_ ?_ ?_ ?_ ?_ ?_ ?_ ?_ ?_ ?_ ?_
  · intro content
    simp [Html.close_comment]
  · intro content full h
    simp_all [Html.close_comment]
  · intro s
    simp [Html.close_comment]
  · simp [Html.close_comment]
  · intro n a
    simp [Html.close_comment]
  · intro tag full child hopen c b hcc ih
    simp_all [Html.close_comment]
  · intro tag full child hopen
    simp_all [Html.close_comment]
  · intro xs ys b hlast ih
    simp_all [Html.close_comment]
  · simp [Html.close_comment_last]
  · intro x c b hcc ih
    simp_all [Html.close_comment_last]
  · intro hd y rest ys b hlast ih
    simp_all [Html.close_comment_last]

/-- Joint structural induction over `Html` and `List Html`, packaged from
the primitive recursor. -/
theorem Html.joint_induction (motive_1 : Html → Prop) (motive_2 : List Html → Prop)
    (hC : ∀ c f, motive_1 (.Comment c f))
    (hD : ∀ n a, motive_1 (.Document n a))
    (hE : motive_1 .Empty)
    (hT : ∀ tag full child, motive_1 child → motive_1 (.Tag tag full child))
    (hX : ∀ s, motive_1 (.Text s))
    (hV : ∀ xs, motive_2 xs → motive_1 (.Vec xs))
    (hnil : motive_2 [])
    (hcons : ∀ x l, motive_1 x → motive_2 l → motive_2 (x :: l)) :
    (∀ t, motive_1 t) ∧ ∀ l, motive_2 l := by
  have h1 : ∀ t, motive_1 t := fun t =>
    @Html.rec motive_1 motive_2 hC hD hE hT hX hV hnil hcons t
  refine ⟨h1, ?_⟩
  intro l
  induction l with
  | nil => exact hnil
  | cons x l ih => exact hcons x l (h1 x) ih

theorem run_append_chars (l : List Char) (t : Html) :
    List.foldl (fun acc op => acc.bind fun u => apply_op u op) (some t)
      (l.map Op.AppendChar) = some (l.foldl Html.push_char t) := by
  induction l generalizing t with
  | nil => rfl
  | cons c l ih => simpa using ih (t.push_char c)

theorem run_chars (l : List Char) :
    run (l.map Op.AppendChar) = some (l.foldl Html.push_char .Empty) := by
  simpa [run] using run_append_chars l .Empty

theorem foldl_push_char_text (l : List Char) (acc : String) :
    l.foldl Html.push_char (.Text acc) = .Text (acc ++ String.mk l) := by
  induction l generalizing acc with
  | nil =>
      have h : acc ++ String.mk [] = acc := by
        apply String.ext
        simp [String.data_append, String.mk]
      simp [h]
  | cons c l ih =>
      have h1 : Html.push_char (.Text acc) c = .Text (acc.push c) := rfl
      rw [List.foldl_cons, h1, ih, string_push_append]

theorem close_tag_aux_last_append (xs : List Html) (x : Html) (name : String) :
    Html.close_tag_aux_last (xs ++ [x]) name =
      (xs ++ [(Html.close_tag_aux x name).1], (Html.close_tag_aux x name).2) := by
  induction xs with
  | nil =>
      rcases h : Html.close_tag_aux x name with ⟨y, st⟩
      simp [Html.close_tag_aux_last, h]
  | cons a l ih =>
      rcases hl : l ++ [x] with _ | ⟨y, rest⟩
      · exact absurd hl (by simp)
      · rw [hl] at ih
        rcases hcc : Html.close_tag_aux_last (y :: rest) name with ⟨ys, st⟩
        rw [hcc] at ih
        rw [List.cons_append, hl]
        simp only [Html.close_tag_aux_last, hcc]
        simp_all

theorem close_tag_aux_of_no_open :
    (∀ t : Html, ∀ name, Html.last_open_name t = none →
      Html.close_tag_aux t name = (t, .Full)) ∧
    (∀ l : List Html, ∀ name, Html.last_open_name_list l = none →
      Html.close_tag_aux_last l name = (l, .Full)) := by
  refine Html.joint_induction _ _ ?_ ?_ ?_ ?_ ?_ ?_ ?_ ?_
  · intro c f name h
    rfl
  · intro n a name h
    rfl
  · intro name h
    rfl
  · intro tag full child ih name h
    cases full with
    | Opened => simp [Html.last_open_name] at h
    | Closed => rfl
    | SelfClosing => rfl
  · intro s name h
    rfl
  · intro xs ihl name h
    rw [Html.last_open_name] at h
    simp [Html.close_tag_aux, ihl name h]
  · intro name h
    rfl
  · intro x l ihx ihl name h
    rcases l with _ | ⟨y, rest⟩
    · have hx := ihx name (by simpa [Html.last_open_name_list] using h)
      simp [Html.close_tag_aux_last, hx]
    · have hl := ihl name (by simpa [Html.last_open_name_list] using h)
      simp [Html.close_tag_aux_last, hl]

theorem close_tag_aux_wrong :
    (∀ t : Html, ∀ name b, Html.last_open_name t = some b → b ≠ name →
      Html.close_tag_aux t name = (Html.take_inner_name t, .WrongName b)) ∧
    (∀ l : List Html, ∀ name b, Html.last_open_name_list l = some b → b ≠ name →
      Html.close_tag_aux_last l name = (Html.take_inner_name_list l, .WrongName b)) := by
  refine Html.joint_induction _ _ ?_ ?_ ?_ ?_ ?_ ?_ ?_ ?_
  · intro c f name b h
    simp [Html.last_open_name] at h
  · intro n a name b h
    simp [Html.last_open_name] at h
  · intro name b h
    simp [Html.last_open_name] at h
  · intro tag full child ih name b h hne
    cases full with
    | Closed => simp [Html.last_open_name] at h
    | SelfClosing => simp [Html.last_open_name] at h
    | Opened =>
        rw [Html.last_open_name] at h
        rcases hl : Html.last_open_name child with _ | b'
        · rw [hl] at h
          simp only [Option.getD_none, Option.some.injEq] at h
          have hfull := close_tag_aux_of_no_open.1 child name hl
          subst h
          simp [Html.close_tag_aux, hfull, Html.take_inner_name, hl, hne]
        · rw [hl] at h
          simp only [Option.getD_some, Option.some.injEq] at h
          subst h
          have hw := ih name b' (by rw [hl]) hne
          simp [Html.close_tag_aux, hw, Html.take_inner_name, hl]
  · intro s name b h
    simp [Html.last_open_name] at h
  · intro xs ihl name b h hne
    rw [Html.last_open_name] at h
    simp [Html.close_tag_aux, Html.take_inner_name, ihl name b h hne]
  · intro name b h
    simp [Html.last_open_name_list] at h
  · intro x l ihx ihl name b h hne
    rcases l with _ | ⟨y, rest⟩
    · have hx := ihx name b (by simpa [Html.last_open_name_list] using h) hne
      simp [Html.close_tag_aux_last, Html.take_inner_name_list, hx]
    · have hl := ihl name b (by simpa [Html.last_open_name_list] using h) hne
      simp [Html.close_tag_aux_last, Html.take_inner_name_list, hl]

theorem last_open_name_take :
    (∀ t : Html, ∀ b, Html.last_open_name t = some b →
      Html.last_open_name (Html.take_inner_name t) = some "") ∧
    (∀ l : List Html, ∀ b, Html.last_open_name_list l = some b →
      Html.last_open_name_list (Html.take_inner_name_list l) = some "") := by
  refine Html.joint_induction _ _ ?_ ?_ ?_ ?_ ?_ ?_ ?_ ?_
  · intro c f b h
    simp [Html.last_open_name] at h
  · intro n a b h
    simp [Html.last_open_name] at h
  · intro b h
    simp [Html.last_open_name] at h
  · intro tag full child ih b h
    cases full with
    | Closed => simp [Html.last_open_name] at h
    | SelfClosing => simp [Html.last_open_name] at h
    | Opened =>
        rcases hl : Html.last_open_name child with _ | b'
        · simp [Html.take_inner_name, hl, Html.last_open_name]
        · have := ih b' hl
          simp [Html.take_inner_name, hl, Html.last_open_name, this]
  · intro s b h
    simp [Html.last_open_name] at h
  · intro xs ihl b h
    rw [Html.last_open_name] at h
    simp [Html.take_inner_name, Html.last_open_name, ihl b h]
  · intro b h
    simp [Html.last_open_name_list] at h
  · intro x l ihx ihl b h
    rcases l with _ | ⟨y, rest⟩
    · have hx := ihx b (by simpa [Html.last_open_name_list] using h)
      simp [Html.take_inner_name_list, Html.last_open_name_list, hx]
    · have hl := ihl b (by simpa [Html.last_open_name_list] using h)
      rcases htl : Html.take_inner_name_list (y :: rest) with _ | ⟨z, zs⟩
      · cases rest <;> simp [Html.take_inner_name_list] at htl
      · rw [htl] at hl
        simp [Html.take_inner_name_list, Html.last_open_name_list, htl, hl]

theorem run_preserves (P : Html → Prop) (h0 : P .Empty)
    (hstep : ∀ t op u, P t → apply_op t op = some u → P u) :
    ∀ ops t, run ops = some t → P t := by
  have gen : ∀ ops acc t, (∀ u, acc = some u → P u) →
      List.foldl (fun a op => a.bind fun v => apply_op v op) acc ops = some t → P t := by
    intro ops
    induction ops with
    | nil =>
        intro acc t hacc h
        exact hacc t h
    | cons op ops ih =>
        intro acc t hacc h
        rw [List.foldl_cons] at h
        refine ih _ t ?_ h
        intro u hu
        rcases acc with _ | v
        · simp at hu
        · simp only [Option.some_bind] at hu
          exact hstep v op u (hacc v rfl) hu
  intro ops t h
  refine gen ops (some .Empty) t ?_ h
  intro u hu
  cases hu
  exact h0

theorem pushable_false_of_char_unpushable :
    ∀ t : Html, t.is_pushable true = false → t.is_pushable false = false := by
  intro t h
  cases t <;> simp_all [Html.is_pushable]

theorem is_vec_push_char :
    ∀ (t : Html) (ch : Char), Html.is_vec t = false → t.is_pushable true = true →
      Html.is_vec (t.push_char ch) = false := by
  intro t ch hv hp
  cases t with
  | Comment c f => cases f <;> simp_all [Html.is_pushable, Html.push_char, Html.is_vec]
  | Document n a => simp_all [Html.is_pushable]
  | Empty => simp [Html.push_char, Html.from_char, Html.is_vec]
  | Tag tag full child =>
      cases full <;>
        simp_all [Html.is_pushable, TagType.is_open, Html.push_char, Html.is_vec]
  | Text s => simp [Html.push_char, Html.is_vec]
  | Vec xs => simp [Html.is_vec] at hv

theorem is_vec_push_node :
    ∀ (t node r : Html), Html.is_vec t = false → t.is_pushable false = true →
      Html.is_vec node = false → Html.push_node t node = some r →
      Html.is_vec r = false := by
  intro t node r hv hp hn hr
  cases t with
  | Comment c f =>
      simp [Html.push_node] at hr
  | Document n a => simp_all [Html.is_pushable]
  | Empty =>
      simp [Html.push_node] at hr
      subst hr
      exact hn
  | Tag tag full child =>
      cases full with
      | Opened =>
          rcases hpn : Html.push_node child node with _ | c <;>
            simp_all [Html.push_node, Html.is_vec]
          subst hr
          simp [Html.is_vec]
      | Closed => simp_all [Html.is_pushable, TagType.is_open]
      | SelfClosing => simp_all [Html.is_pushable, TagType.is_open]
  | Text s => simp_all [Html.is_pushable]
  | Vec xs => simp [Html.is_vec] at hv

theorem wf_push_char :
    ∀ (t : Html) (ch : Char), Html.wf_seq t = true →
      Html.wf_seq (t.push_char ch) = true := by
  refine Html.push_char.induct
    (fun t ch => Html.wf_seq t = true → Html.wf_seq (t.push_char ch) = true)
    (fun xs ch => Html.wf_seq_list xs = true →
      Html.wf_seq_list (Html.push_char_last xs ch) = true ∧
        xs.length ≤ (Html.push_char_last xs ch).length)
    ?_ ?_ ?_ ?_ ?_ ?_ ?_ ?_ ?_ ?_ ?_ ?_ ?_
  · intro ch h
    rfl
  · intro tag child ch ih h
    rw [Html.wf_seq] at h
    simpa [Html.push_char, Html.wf_seq] using ih h
  · intro n a ch h
    simp [Html.push_char, Html.wf_seq, Html.wf_seq_list, Html.is_vec, Html.from_char]
  · intro tag child ch h
    rw [Html.wf_seq] at h
    simp [Html.push_char, Html.wf_seq, Html.wf_seq_list, Html.is_vec, Html.from_char, h]
  · intro tag child ch h
    rw [Html.wf_seq] at h
    simp [Html.push_char, Html.wf_seq, Html.wf_seq_list, Html.is_vec, Html.from_char, h]
  · intro s ch h
    rfl
  · intro xs ch ihl h
    rw [Html.wf_seq, Bool.and_eq_true, decide_eq_true_eq] at h
    obtain ⟨hw, hlen⟩ := ihl h.2
    rw [Html.push_char, Html.wf_seq, Bool.and_eq_true, decide_eq_true_eq]
    exact ⟨le_trans h.1 hlen, hw⟩
  · intro content ch h
    simp [Html.push_char, Html.wf_seq, Html.wf_seq_list, Html.is_vec, Html.from_char]
  · intro content full ch hfull h
    simp_all [Html.push_char, Html.wf_seq]
  · intro ch h
    refine ⟨?_, by simp [Html.push_char_last]⟩
    simp [Html.push_char_last, Html.wf_seq_list, Html.is_vec, Html.from_char, Html.wf_seq]
  · intro x ch hp ih h
    rw [Html.wf_seq_list, Bool.and_eq_true, Bool.and_eq_true] at h
    obtain ⟨⟨hvx, hwx⟩, -⟩ := h
    have h1 := is_vec_push_char x ch (by simpa using hvx) hp
    have h2 := ih hwx
    refine ⟨?_, by simp [Html.push_char_last, hp]⟩
    simp [Html.push_char_last, hp, Html.wf_seq_list, h1, h2]
  · intro x ch hp h
    rw [Html.wf_seq_list] at h
    refine ⟨?_, by simp [Html.push_char_last, hp]⟩
    have hx : Html.is_vec (.Text (String.singleton ch)) = false := rfl
    simp [Html.push_char_last, hp, Html.wf_seq_list, Html.from_char, Html.wf_seq, hx]
    simp_all
  · intro x y rest ch ihl h
    rw [Html.wf_seq_list, Bool.and_eq_true, Bool.and_eq_true] at h
    obtain ⟨⟨hvx, hwx⟩, hrest⟩ := h
    obtain ⟨hw, hlen⟩ := ihl hrest
    constructor
    · simp [Html.push_char_last, Html.wf_seq_list, hvx, hwx, hw]
    · simpa [Html.push_char_last] using hlen

theorem wf_push_node :
    ∀ (t node : Html), Html.wf_seq t = true → Html.wf_seq node = true →
      Html.is_vec node = false → ∀ r, Html.push_node t node = some r →
      Html.wf_seq r = true := by
  refine Html.push_node.induct
    (fun t node => Html.wf_seq t = true → Html.wf_seq node = true →
      Html.is_vec node = false → ∀ r, Html.push_node t node = some r →
      Html.wf_seq r = true)
    (fun xs node => Html.wf_seq_list xs = true → Html.wf_seq node = true →
      Html.is_vec node = false → ∀ ys, Html.push_node_last xs node = some ys →
      Html.wf_seq_list ys = true ∧ xs.length ≤ ys.length)
    ?_ ?_ ?_ ?_ ?_ ?_ ?_ ?_ ?_ ?_ ?_ ?_
  · intro node ht hn hv r hr
    simp only [Html.push_node, Option.some.injEq] at hr
    subst hr
    exact hn
  · intro tag child node ih ht hn hv r hr
    rw [Html.wf_seq] at ht
    rcases hpn : Html.push_node child node with _ | c
    · simp [Html.push_node, hpn] at hr
    · simp only [Html.push_node, hpn, Option.map_some', Option.some.injEq] at hr
      subst hr
      rw [Html.wf_seq]
      exact ih ht hn hv c hpn
  · intro s node ht hn hv r hr
    simp only [Html.push_node, Option.some.injEq] at hr
    subst hr
    have hx : Html.is_vec (.Text s) = false := rfl
    simp [Html.wf_seq, Html.wf_seq_list, hn, hv, hx]
  · intro n a node ht hn hv r hr
    simp only [Html.push_node, Option.some.injEq] at hr
    subst hr
    have hx : Html.is_vec (.Document n a) = false := rfl
    simp [Html.wf_seq, Html.wf_seq_list, hn, hv, hx]
  · intro tag child node ht hn hv r hr
    rw [Html.wf_seq] at ht
    simp only [Html.push_node, Option.some.injEq] at hr
    subst hr
    have hx : ∀ st, Html.is_vec (.Tag tag st child) = false := fun st => rfl
    simp [Html.wf_seq, Html.wf_seq_list, hn, hv, ht, hx]
  · intro tag child node ht hn hv r hr
    rw [Html.wf_seq] at ht
    simp only [Html.push_node, Option.some.injEq] at hr
    subst hr
    have hx : ∀ st, Html.is_vec (.Tag tag st child) = false := fun st => rfl
    simp [Html.wf_seq, Html.wf_seq_list, hn, hv, ht, hx]
  · intro xs node ihl ht hn hv r hr
    rw [Html.wf_seq, Bool.and_eq_true, decide_eq_true_eq] at ht
    rcases hys : Html.push_node_last xs node with _ | ys
    · simp [Html.push_node, hys] at hr
    · simp only [Html.push_node, hys, Option.map_some', Option.some.injEq] at hr
      subst hr
      obtain ⟨hw, hlen⟩ := ihl ht.2 hn hv ys hys
      rw [Html.wf_seq, Bool.and_eq_true, decide_eq_true_eq]
      exact ⟨le_trans ht.1 hlen, hw⟩
  · intro content full node ht hn hv r hr
    simp [Html.push_node] at hr
  · intro node ht hn hv ys hys
    simp only [Html.push_node_last, Option.some.injEq] at hys
    subst hys
    refine ⟨?_, by simp⟩
    simp [Html.wf_seq_list, hn, hv, Html.wf_seq]
  · intro x node hp ih ht hn hv ys hys
    rw [Html.wf_seq_list, Bool.and_eq_true, Bool.and_eq_true] at ht
    obtain ⟨⟨hvx, hwx⟩, -⟩ := ht
    rcases hpn : Html.push_node x node with _ | y
    · simp [Html.push_node_last, hp, hpn] at hys
    · simp only [Html.push_node_last, hp, if_true, hpn, Option.map_some',
        Option.some.injEq] at hys
      subst hys
      have h1 := is_vec_push_node x node y (by simpa using hvx) hp hv hpn
      have h2 := ih hwx hn hv y hpn
      exact ⟨by simp [Html.wf_seq_list, h1, h2], by simp⟩
  · intro x node hp ht hn hv ys hys
    rw [Html.wf_seq_list] at ht
    simp only [Html.push_node_last, hp, if_false, if_neg, Bool.false_eq_true,
      Option.some.injEq] at hys
    subst hys
    refine ⟨?_, by simp⟩
    simp only [Html.wf_seq_list, Bool.and_eq_true]
    simp_all
  · intro x y rest node ihl ht hn hv ys hys
    rw [Html.wf_seq_list, Bool.and_eq_true, Bool.and_eq_true] at ht
    obtain ⟨⟨hvx, hwx⟩, hrest⟩ := ht
    rcases hpl : Html.push_node_last (y :: rest) node with _ | zs
    · simp [Html.push_node_last, hpl] at hys
    · simp only [Html.push_node_last, hpl, Option.map_some', Option.some.injEq] at hys
      subst hys
      obtain ⟨hw, hlen⟩ := ihl hrest hn hv zs hpl
      constructor
      · simp [Html.wf_seq_list, hvx, hwx, hw]
      · simpa using hlen

theorem wf_close_comment :
    ∀ t : Html, (Html.is_vec (Html.close_comment t).1 = Html.is_vec t) ∧
      (Html.wf_seq t = true → Html.wf_seq (Html.close_comment t).1 = true) := by
  refine Html.close_comment.induct
    (fun t => (Html.is_vec (Html.close_comment t).1 = Html.is_vec t) ∧
      (Html.wf_seq t = true → Html.wf_seq (Html.close_comment t).1 = true))
    (fun l => ((Html.close_comment_last l).1.length = l.length) ∧
      (Html.wf_seq_list l = true → Html.wf_seq_list (Html.close_comment_last l).1 = true))
    ?_ ?_ ?_ ?_ ?_ ?_ ?_ ?_ ?_ ?_ ?_
  · intro content
    exact ⟨rfl, fun h => h⟩
  · intro content full hfull
    constructor
    · simp [Html.close_comment, hfull, Html.is_vec]
    · intro h
      simp [Html.close_comment, hfull, Html.wf_seq]
  · intro s
    exact ⟨rfl, fun h => h⟩
  · exact ⟨rfl, fun h => h⟩
  · intro n a
    exact ⟨rfl, fun h => h⟩
  · intro tag full child hopen c b hcc ih
    rw [hcc] at ih
    constructor
    · simp [Html.close_comment, hopen, hcc, Html.is_vec]
    · intro h
      rw [Html.wf_seq] at h
      simp only [Html.close_comment, hopen, if_true, hcc, Html.wf_seq]
      exact ih.2 h
  · intro tag full child hopen
    constructor
    · simp [Html.close_comment, hopen]
    · intro h
      simpa [Html.close_comment, hopen] using h
  · intro xs ys b hlast ih
    rw [hlast] at ih
    constructor
    · simp [Html.close_comment, hlast, Html.is_vec]
    · intro h
      rw [Html.wf_seq, Bool.and_eq_true, decide_eq_true_eq] at h
      simp only [Html.close_comment, hlast, Html.wf_seq, Bool.and_eq_true,
        decide_eq_true_eq]
      exact ⟨by rw [ih.1]; exact h.1, ih.2 h.2⟩
  · exact ⟨rfl, fun h => h⟩
  · intro x c b hcc ih
    rw [hcc] at ih
    constructor
    · simp [Html.close_comment_last, hcc]
    · intro h
      rw [Html.wf_seq_list, Bool.and_eq_true, Bool.and_eq_true] at h
      simp only [Html.close_comment_last, hcc, Html.wf_seq_list, Bool.and_eq_true]
      exact ⟨⟨by rw [ih.1]; exact h.1.1, ih.2 h.1.2⟩, trivial⟩
  · intro hd y rest ys b hlast ih
    rw [hlast] at ih
    constructor
    · simp [Html.close_comment_last, hlast, ih.1]
    · intro h
      rw [Html.wf_seq_list, Bool.and_eq_true, Bool.and_eq_true] at h
      simp only [Html.close_comment_last, hlast, Html.wf_seq_list, Bool.and_eq_true]
      exact ⟨⟨h.1.1, h.1.2⟩, ih.2 h.2⟩

theorem wf_close_tag_aux :
    ∀ (t : Html) (name : String),
      (Html.is_vec (Html.close_tag_aux t name).1 = Html.is_vec t) ∧
      (Html.wf_seq t = true → Html.wf_seq (Html.close_tag_aux t name).1 = true) := by
  refine Html.close_tag_aux.induct
    (fun t name => (Html.is_vec (Html.close_tag_aux t name).1 = Html.is_vec t) ∧
      (Html.wf_seq t = true → Html.wf_seq (Html.close_tag_aux t name).1 = true))
    (fun l name => ((Html.close_tag_aux_last l name).1.length = l.length) ∧
      (Html.wf_seq_list l = true →
        Html.wf_seq_list (Html.close_tag_aux_last l name).1 = true))
    ?_ ?_ ?_ ?_ ?_ ?_ ?_ ?_
  · intro tag child name c hcc he ih
    rw [hcc] at ih
    constructor
    · simp [Html.close_tag_aux, hcc, he, Html.is_vec]
    · intro h
      rw [Html.wf_seq] at h
      simp only [Html.close_tag_aux, hcc, he, if_true, Html.wf_seq]
      exact ih.2 h
  · intro tag child name c hcc hne ih
    rw [hcc] at ih
    constructor
    · simp [Html.close_tag_aux, hcc, hne, Html.is_vec]
    · intro h
      rw [Html.wf_seq] at h
      simp only [Html.close_tag_aux, hcc, hne, if_false, Html.wf_seq]
      exact ih.2 h
  · intro tag child name c st hst hcc ih
    rw [hcc] at ih
    have harm : Html.close_tag_aux (.Tag tag .Opened child) name =
        (.Tag tag .Opened c, st) := by
      cases st with
      | Full => exact absurd rfl hst
      | Success => simp [Html.close_tag_aux, hcc]
      | WrongName e => simp [Html.close_tag_aux, hcc]
    rw [harm]
    constructor
    · rfl
    · intro h
      rw [Html.wf_seq] at h
      rw [Html.wf_seq]
      exact ih.2 h
  · intro xs name ys st hlast ih
    rw [hlast] at ih
    constructor
    · simp [Html.close_tag_aux, hlast, Html.is_vec]
    · intro h
      rw [Html.wf_seq, Bool.and_eq_true, decide_eq_true_eq] at h
      simp only [Html.close_tag_aux, hlast, Html.wf_seq, Bool.and_eq_true,
        decide_eq_true_eq]
      exact ⟨by rw [ih.1]; exact h.1, ih.2 h.2⟩
  · intro t name hnotTag hnotVec
    have harm : Html.close_tag_aux t name = (t, .Full) := by
      cases t with
      | Comment c f => rfl
      | Document n a => rfl
      | Empty => rfl
      | Text s => rfl
      | Vec xs => exact absurd rfl (hnotVec xs)
      | Tag tag full child =>
          cases full with
          | Opened => exact absurd rfl (hnotTag tag child)
          | Closed => rfl
          | SelfClosing => rfl
    rw [harm]
    exact ⟨rfl, fun h => h⟩
  · intro name
    exact ⟨rfl, fun h => h⟩
  · intro x name y st hcc ih
    rw [hcc] at ih
    constructor
    · simp [Html.close_tag_aux_last, hcc]
    · intro h
      rw [Html.wf_seq_list, Bool.and_eq_true, Bool.and_eq_true] at h
      simp only [Html.close_tag_aux_last, hcc, Html.wf_seq_list, Bool.and_eq_true]
      exact ⟨⟨by rw [ih.1]; exact h.1.1, ih.2 h.1.2⟩, trivial⟩
  · intro x y rest name ys st hlast ih
    rw [hlast] at ih
    constructor
    · simp [Html.close_tag_aux_last, hlast, ih.1]
    · intro h
      rw [Html.wf_seq_list, Bool.and_eq_true, Bool.and_eq_true] at h
      simp only [Html.close_tag_aux_last, hlast, Html.wf_seq_list, Bool.and_eq_true]
      exact ⟨⟨h.1.1, h.1.2⟩, ih.2 h.2⟩

theorem close_tag_fst (t : Html) (name : String) :
    (Html.close_tag t name).1 = (Html.close_tag_aux t name).1 := by
  rcases haux : Html.close_tag_aux t name with ⟨u, st⟩
  cases st <;> simp [Html.close_tag, haux]

theorem wf_apply_op :
    ∀ (t : Html) (op : Op) (u : Html), Html.wf_seq t = true →
      apply_op t op = some u → Html.wf_seq u = true := by
  intro t op u ht h
  cases op with
  | AppendChar ch =>
      simp only [apply_op, Option.some.injEq] at h
      subst h
      exact wf_push_char t ch ht
  | OpenTag tag inline =>
      simp only [apply_op, Html.push_tag] at h
      exact wf_push_node t _ ht (by cases inline <;> rfl) (by cases inline <;> rfl) u h
  | CloseTag name =>
      simp only [apply_op, Option.some.injEq] at h
      subst h
      rw [close_tag_fst]
      exact (wf_close_tag_aux t name).2 ht
  | OpenComment =>
      simp only [apply_op, Html.push_comment] at h
      exact wf_push_node t (.Comment "" false) ht rfl rfl u h
  | CloseComment =>
      simp only [apply_op, Option.some.injEq] at h
      subst h
      exact (wf_close_comment t).2 ht

theorem push_char_last_ne_nil : ∀ (l : List Html) (ch : Char),
    Html.push_char_last l ch ≠ [] := by
  intro l ch
  match l with
  | [] => simp [Html.push_char_last]
  | [x] =>
      rw [Html.push_char_last]
      split <;> simp
  | x :: y :: rest => simp [Html.push_char_last]

theorem inert_count : ∀ t : Html, Html.inert_node t = true →
    Html.open_path_count t = 0 := by
  intro t h
  cases t with
  | Comment c f =>
      rw [Html.inert_node, Html.is_pushable] at h
      simp only [Bool.not_not] at h
      simp [Html.open_path_count, h]
  | Tag tag full child =>
      cases full with
      | Opened =>
          rw [Html.inert_node, Html.is_pushable] at h
          simp [TagType.is_open] at h
      | Closed => rfl
      | SelfClosing => rfl
  | Document n a => rfl
  | Text s => rfl
  | Empty =>
      rw [Html.inert_node, Html.is_pushable] at h
      simp at h
  | Vec xs =>
      rw [Html.inert_node, Html.is_pushable] at h
      simp at h

theorem fr_push_char :
    ∀ (t : Html) (ch : Char), Html.fringe_inv t = true →
      Html.fringe_inv (t.push_char ch) = true := by
  refine Html.push_char.induct
    (fun t ch => Html.fringe_inv t = true → Html.fringe_inv (t.push_char ch) = true)
    (fun xs ch => Html.fringe_inv_list xs = true →
      Html.fringe_inv_list (Html.push_char_last xs ch) = true)
    ?_ ?_ ?_ ?_ ?_ ?_ ?_ ?_ ?_ ?_ ?_ ?_ ?_
  · intro ch h
    rfl
  · intro tag child ch ih h
    rw [Html.fringe_inv] at h
    simpa [Html.push_char, Html.fringe_inv] using ih h
  · intro n a ch h
    rfl
  · intro tag child ch h
    rw [Html.fringe_inv] at h
    simp [Html.push_char, Html.fringe_inv, Html.fringe_inv_list, Html.inert_node,
      Html.is_pushable, Html.from_char, TagType.is_open, h]
  · intro tag child ch h
    rw [Html.fringe_inv] at h
    simp [Html.push_char, Html.fringe_inv, Html.fringe_inv_list, Html.inert_node,
      Html.is_pushable, Html.from_char, TagType.is_open, h]
  · intro s ch h
    rfl
  · intro xs ch ihl h
    rw [Html.fringe_inv] at h
    simpa [Html.push_char, Html.fringe_inv] using ihl h
  · intro content ch h
    rfl
  · intro content full ch hfull h
    simp [Html.push_char, hfull, Html.fringe_inv]
  · intro ch h
    rfl
  · intro x ch hp ih h
    rw [Html.fringe_inv_list] at h
    simp only [Html.push_char_last, hp, if_true, Html.fringe_inv_list]
    exact ih h
  · intro x ch hp h
    rw [Html.fringe_inv_list] at h
    have h1 := pushable_false_of_char_unpushable x (by simpa using hp)
    simp only [Html.push_char_last, hp, if_false, Bool.false_eq_true,
      Html.fringe_inv_list, Html.inert_node, h1, Bool.not_false, Bool.and_eq_true]
    exact ⟨⟨trivial, h⟩, rfl⟩
  · intro x y rest ch ihl h
    rw [Html.fringe_inv_list, Bool.and_eq_true, Bool.and_eq_true] at h
    obtain ⟨⟨hix, hfx⟩, hrest⟩ := h
    have hr := ihl hrest
    rcases hys : Html.push_char_last (y :: rest) ch with _ | ⟨z, zs⟩
    · exact absurd hys (push_char_last_ne_nil _ ch)
    · rw [hys] at hr
      simp only [Html.push_char_last, hys, Html.fringe_inv_list, Bool.and_eq_true]
      exact ⟨⟨hix, hfx⟩, hr⟩

theorem fr_push_node :
    ∀ (t node : Html), Html.fringe_inv t = true → Html.fringe_inv node = true →
      ∀ r, Html.push_node t node = some r → Html.fringe_inv r = true := by
  refine Html.push_node.induct
    (fun t node => Html.fringe_inv t = true → Html.fringe_inv node = true →
      ∀ r, Html.push_node t node = some r → Html.fringe_inv r = true)
    (fun xs node => Html.fringe_inv_list xs = true → Html.fringe_inv node = true →
      ∀ ys, Html.push_node_last xs node = some ys →
        Html.fringe_inv_list ys = true ∧ ys ≠ [])
    ?_ ?_ ?_ ?_ ?_ ?_ ?_ ?_ ?_ ?_ ?_ ?_
  · intro node ht hn r hr
    simp only [Html.push_node, Option.some.injEq] at hr
    subst hr
    exact hn
  · intro tag child node ih ht hn r hr
    rw [Html.fringe_inv] at ht
    rcases hpn : Html.push_node child node with _ | c
    · simp [Html.push_node, hpn] at hr
    · simp only [Html.push_node, hpn, Option.map_some', Option.some.injEq] at hr
      subst hr
      rw [Html.fringe_inv]
      exact ih ht hn c hpn
  · intro s node ht hn r hr
    simp only [Html.push_node, Option.some.injEq] at hr
    subst hr
    simp [Html.fringe_inv, Html.fringe_inv_list, Html.inert_node, Html.is_pushable, hn]
  · intro n a node ht hn r hr
    simp only [Html.push_node, Option.some.injEq] at hr
    subst hr
    simp [Html.fringe_inv, Html.fringe_inv_list, Html.inert_node, Html.is_pushable, hn]
  · intro tag child node ht hn r hr
    rw [Html.fringe_inv] at ht
    simp only [Html.push_node, Option.some.injEq] at hr
    subst hr
    simp [Html.fringe_inv, Html.fringe_inv_list, Html.inert_node, Html.is_pushable,
      TagType.is_open, hn, ht]
  · intro tag child node ht hn r hr
    rw [Html.fringe_inv] at ht
    simp only [Html.push_node, Option.some.injEq] at hr
    subst hr
    simp [Html.fringe_inv, Html.fringe_inv_list, Html.inert_node, Html.is_pushable,
      TagType.is_open, hn, ht]
  · intro xs node ihl ht hn r hr
    rw [Html.fringe_inv] at ht
    rcases hys : Html.push_node_last xs node with _ | ys
    · simp [Html.push_node, hys] at hr
    · simp only [Html.push_node, hys, Option.map_some', Option.some.injEq] at hr
      subst hr
      rw [Html.fringe_inv]
      exact (ihl ht hn ys hys).1
  · intro content full node ht hn r hr
    simp [Html.push_node] at hr
  · intro node ht hn ys hys
    simp only [Html.push_node_last, Option.some.injEq] at hys
    subst hys
    exact ⟨by simpa [Html.fringe_inv_list] using hn, by simp⟩
  · intro x node hp ih ht hn ys hys
    rw [Html.fringe_inv_list] at ht
    rcases hpn : Html.push_node x node with _ | y
    · simp [Html.push_node_last, hp, hpn] at hys
    · simp only [Html.push_node_last, hp, if_true, hpn, Option.map_some',
        Option.some.injEq] at hys
      subst hys
      exact ⟨by simpa [Html.fringe_inv_list] using ih ht hn y hpn, by simp⟩
  · intro x node hp ht hn ys hys
    rw [Html.fringe_inv_list] at ht
    simp only [Html.push_node_last, hp, if_false, Bool.false_eq_true,
      Option.some.injEq] at hys
    subst hys
    have h1 : Html.inert_node x = true := by
      rw [Html.inert_node]
      simpa using hp
    refine ⟨?_, by simp⟩
    simp only [Html.fringe_inv_list, Bool.and_eq_true, h1, ht, hn]
    exact ⟨⟨trivial, trivial⟩, trivial⟩
  · intro x y rest node ihl ht hn ys hys
    rw [Html.fringe_inv_list, Bool.and_eq_true, Bool.and_eq_true] at ht
    obtain ⟨⟨hix, hfx⟩, hrest⟩ := ht
    rcases hpl : Html.push_node_last (y :: rest) node with _ | zs
    · simp [Html.push_node_last, hpl] at hys
    · simp only [Html.push_node_last, hpl, Option.map_some', Option.some.injEq] at hys
      subst hys
      obtain ⟨hf, hne⟩ := ihl hrest hn zs hpl
      rcases zs with _ | ⟨z, zs'⟩
      · exact absurd rfl hne
      · refine ⟨?_, by simp⟩
        simp only [Html.fringe_inv_list, Bool.and_eq_true]
        exact ⟨⟨hix, hfx⟩, hf⟩

theorem fr_close_comment :
    ∀ t : Html, Html.fringe_inv t = true →
      Html.fringe_inv (Html.close_comment t).1 = true := by
  refine Html.close_comment.induct
    (fun t => Html.fringe_inv t = true →
      Html.fringe_inv (Html.close_comment t).1 = true)
    (fun l => ((Html.close_comment_last l).1.length = l.length) ∧
      (Html.fringe_inv_list l = true →
        Html.fringe_inv_list (Html.close_comment_last l).1 = true))
    ?_ ?_ ?_ ?_ ?_ ?_ ?_ ?_ ?_ ?_ ?_
  · intro content h
    exact h
  · intro content full hfull h
    simp [Html.close_comment, hfull, Html.fringe_inv]
  · intro s h
    exact h
  · intro h
    exact h
  · intro n a h
    exact h
  · intro tag full child hopen c b hcc ih
    intro h
    rw [Html.fringe_inv] at h
    simp only [Html.close_comment, hopen, if_true, hcc, Html.fringe_inv]
    have := ih h
    rwa [hcc] at this
  · intro tag full child hopen h
    simpa [Html.close_comment, hopen] using h
  · intro xs ys b hlast ih h
    rw [Html.fringe_inv] at h
    rw [hlast] at ih
    simp only [Html.close_comment, hlast, Html.fringe_inv]
    exact ih.2 h
  · exact ⟨rfl, fun h => h⟩
  · intro x c b hcc ih
    rw [hcc] at ih
    refine ⟨by simp [Html.close_comment_last, hcc], ?_⟩
    intro h
    rw [Html.fringe_inv_list] at h
    simp only [Html.close_comment_last, hcc, Html.fringe_inv_list]
    exact ih h
  · intro hd y rest ys b hlast ih
    rw [hlast] at ih
    refine ⟨by simp [Html.close_comment_last, hlast, ih.1], ?_⟩
    intro h
    rw [Html.fringe_inv_list, Bool.and_eq_true, Bool.and_eq_true] at h
    obtain ⟨⟨hix, hfx⟩, hrest⟩ := h
    have hf := ih.2 hrest
    rcases hzs : ys with _ | ⟨z, zs⟩
    · rw [hzs] at ih
      simp at ih
    · rw [hzs] at hf
      simp only [Html.close_comment_last, hlast, hzs, Html.fringe_inv_list,
        Bool.and_eq_true]
      exact ⟨⟨hix, hfx⟩, hf⟩

theorem fr_close_tag_aux :
    ∀ (t : Html) (name : String), Html.fringe_inv t = true →
      Html.fringe_inv (Html.close_tag_aux t name).1 = true := by
  refine Html.close_tag_aux.induct
    (fun t name => Html.fringe_inv t = true →
      Html.fringe_inv (Html.close_tag_aux t name).1 = true)
    (fun l name => ((Html.close_tag_aux_last l name).1.length = l.length) ∧
      (Html.fringe_inv_list l = true →
        Html.fringe_inv_list (Html.close_tag_aux_last l name).1 = true))
    ?_ ?_ ?_ ?_ ?_ ?_ ?_ ?_
  · intro tag child name c hcc he ih h
    rw [Html.fringe_inv] at h
    have := ih h
    rw [hcc] at this
    simp only [Html.close_tag_aux, hcc, he, if_true, Html.fringe_inv]
    exact this
  · intro tag child name c hcc hne ih h
    rw [Html.fringe_inv] at h
    have := ih h
    rw [hcc] at this
    simp only [Html.close_tag_aux, hcc, hne, if_false, Html.fringe_inv]
    exact this
  · intro tag child name c st hst hcc ih h
    rw [Html.fringe_inv] at h
    have harm : Html.close_tag_aux (.Tag tag .Opened child) name =
        (.Tag tag .Opened c, st) := by
      cases st with
      | Full => exact absurd rfl hst
      | Success => simp [Html.close_tag_aux, hcc]
      | WrongName e => simp [Html.close_tag_aux, hcc]
    rw [harm]
    have := ih h
    rw [hcc] at this
    exact this
  · intro xs name ys st hlast ih h
    rw [Html.fringe_inv] at h
    rw [hlast] at ih
    simp only [Html.close_tag_aux, hlast, Html.fringe_inv]
    exact ih.2 h
  · intro t name hnotTag hnotVec h
    have harm : Html.close_tag_aux t name = (t, .Full) := by
      cases t with
      | Comment c f => rfl
      | Document n a => rfl
      | Empty => rfl
      | Text s => rfl
      | Vec xs => exact absurd rfl (hnotVec xs)
      | Tag tag full child =>
          cases full with
          | Opened => exact absurd rfl (hnotTag tag child)
          | Closed => rfl
          | SelfClosing => rfl
    rw [harm]
    exact h
  · intro name
    exact ⟨rfl, fun h => h⟩
  · intro x name y st hcc ih
    rw [hcc] at ih
    refine ⟨by simp [Html.close_tag_aux_last, hcc], ?_⟩
    intro h
    rw [Html.fringe_inv_list] at h
    simp only [Html.close_tag_aux_last, hcc, Html.fringe_inv_list]
    exact ih h
  · intro x y rest name ys st hlast ih
    rw [hlast] at ih
    refine ⟨by simp [Html.close_tag_aux_last, hlast, ih.1], ?_⟩
    intro h
    rw [Html.fringe_inv_list, Bool.and_eq_true, Bool.and_eq_true] at h
    obtain ⟨⟨hix, hfx⟩, hrest⟩ := h
    have hf := ih.2 hrest
    rcases hzs : ys with _ | ⟨z, zs⟩
    · rw [hzs] at ih
      simp at ih
    · rw [hzs] at hf
      simp only [Html.close_tag_aux_last, hlast, hzs, Html.fringe_inv_list,
        Bool.and_eq_true]
      exact ⟨⟨hix, hfx⟩, hf⟩

theorem fringe_apply_op :
    ∀ (t : Html) (op : Op) (u : Html), Html.fringe_inv t = true →
      apply_op t op = some u → Html.fringe_inv u = true := by
  intro t op u ht h
  cases op with
  | AppendChar ch =>
      simp only [apply_op, Option.some.injEq] at h
      subst h
      exact fr_push_char t ch ht
  | OpenTag tag inline =>
      simp only [apply_op, Html.push_tag] at h
      exact fr_push_node t _ ht (by cases inline <;> rfl) u h
  | CloseTag name =>
      simp only [apply_op, Option.some.injEq] at h
      subst h
      rw [close_tag_fst]
      exact fr_close_tag_aux t name ht
  | OpenComment =>
      simp only [apply_op, Html.push_comment] at h
      exact fr_push_node t (.Comment "" false) ht rfl u h
  | CloseComment =>
      simp only [apply_op, Option.some.injEq] at h
      subst h
      exact fr_close_comment t ht

theorem fringe_count :
    ∀ t : Html, Html.fringe_inv t = true → Html.open_path_count t ≤ 1 := by
  refine (Html.joint_induction
    (fun t => Html.fringe_inv t = true → Html.open_path_count t ≤ 1)
    (fun l => Html.fringe_inv_list l = true → Html.open_path_count_list l ≤ 1)
    ?_ ?_ ?_ ?_ ?_ ?_ ?_ ?_).1
  · intro c f h
    cases f <;> simp [Html.open_path_count]
  · intro n a h
    simp [Html.open_path_count]
  · intro h
    simp [Html.open_path_count]
  · intro tag full child ih h
    rw [Html.fringe_inv] at h
    cases full with
    | Opened =>
        rw [Html.open_path_count, Nat.max_le]
        exact ⟨le_refl 1, ih h⟩
    | Closed => simp [Html.open_path_count]
    | SelfClosing => simp [Html.open_path_count]
  · intro s h
    simp [Html.open_path_count]
  · intro xs ihl h
    rw [Html.fringe_inv] at h
    rw [Html.open_path_count]
    exact ihl h
  · intro h
    simp [Html.open_path_count_list]
  · intro x l ihx ihl h
    rcases l with _ | ⟨y, rest⟩
    · rw [Html.fringe_inv_list] at h
      rw [Html.open_path_count_list, Html.open_path_count_list]
      simpa using ihx h
    · rw [Html.fringe_inv_list, Bool.and_eq_true, Bool.and_eq_true] at h
      obtain ⟨⟨hix, hfx⟩, hrest⟩ := h
      rw [Html.open_path_count_list, inert_count x hix]
      simpa using ihl hrest

/-! ## Claims -/

/-- C7: feeding the characters of a markup-free string one at a time through
`push_char` into an initially `Empty` tree and rendering yields exactly that
string. -/
theorem c7_plain_text_roundtrip :
    ∀ s : String, no_markup s →
      (run (s.data.map Op.AppendChar)).map Html.render = some s := by
  intro s _
  rcases s with ⟨l⟩
  rcases l with _ | ⟨c, l⟩
  · rfl
  · show (run ((c :: l).map Op.AppendChar)).map Html.render = some (String.mk (c :: l))
    rw [run_chars]
    have h0 : Html.push_char .Empty c = .Text (String.singleton c) := rfl
    have hs : String.singleton c ++ String.mk l = String.mk (c :: l) := by
      apply String.ext
      simp [String.data_append, String.singleton, String.mk]
    rw [List.foldl_cons, h0, foldl_push_char_text, hs]
    rfl

/-- Witness for C7: the markup-free string `abc` round-trips. -/
theorem c7_plain_text_roundtrip_witness :
    no_markup "abc" ∧
      (run ("abc".data.map Op.AppendChar)).map Html.render = some "abc" :=
  ⟨by unfold no_markup; decide, c7_plain_text_roundtrip "abc" (by unfold no_markup; decide)⟩

/-- C1 counterexample: on nested open tags `A` then `B`, closing `A` yields
`WrongName("B")` but does NOT leave the tree as it was: the Rust code
`take`s the inner tag's name, so `B`'s tag (still `Opened`) is now named
by the empty string — the tree IS mutated on mismatch. -/
theorem c1_wrongname_counterexample :
    Html.close_tag_aux (.Tag ⟨"A", ""⟩ .Opened (.Tag ⟨"B", ""⟩ .Opened .Empty)) "A" =
      (.Tag ⟨"A", ""⟩ .Opened (.Tag ⟨"", ""⟩ .Opened .Empty), .WrongName "B") ∧
    Html.Tag ⟨"A", ""⟩ .Opened (.Tag ⟨"", ""⟩ .Opened .Empty) ≠
      Html.Tag ⟨"A", ""⟩ .Opened (.Tag ⟨"B", ""⟩ .Opened .Empty) := by
  refine ⟨rfl, ?_⟩
  intro h
  simp [Tag.mk.injEq] at h

/-- C1 as amended: when the innermost `Opened` tag on the fringe is named
`b` and a different name is closed, the outcome is `WrongName b` and the
only mutation is that the innermost tag's name is `take`n (replaced by the
empty string, status still `Opened`, everything else untouched — which is
what `take_inner_name` performs). -/
theorem c1_wrongname_takes_inner_name :
    ∀ t name b, Html.last_open_name t = some b → b ≠ name →
      Html.close_tag_aux t name = (Html.take_inner_name t, .WrongName b) ∧
      Html.last_open_name (Html.take_inner_name t) = some "" :=
  fun t name b h hne =>
    ⟨close_tag_aux_wrong.1 t name b h hne, last_open_name_take.1 t b h⟩

/-- Witness for C1 (amended): closing `C` while `D` is the innermost open
tag. -/
theorem c1_wrongname_takes_inner_name_witness :
    Html.close_tag_aux (.Tag ⟨"C", ""⟩ .Opened (.Tag ⟨"D", ""⟩ .Opened .Empty)) "C" =
      (Html.take_inner_name (.Tag ⟨"C", ""⟩ .Opened (.Tag ⟨"D", ""⟩ .Opened .Empty)),
        .WrongName "D") ∧
    Html.last_open_name
      (Html.take_inner_name (.Tag ⟨"C", ""⟩ .Opened (.Tag ⟨"D", ""⟩ .Opened .Empty))) =
      some "" :=
  c1_wrongname_takes_inner_name _ "C" "D" rfl (by decide)

/-- C2: the closing-tag resolution algorithm, branch by branch: an `Opened`
tag whose child reports `Full` (the spec's `NoOpenTag`) is the unique
candidate — on a name match its status becomes `Closed` with `Success`,
otherwise `WrongName` with that tag's name; a child `Success` or
`WrongName` propagates unchanged; a `Vec` recurses into its last element
(`Full` when empty); every other shape yields `Full`; and `close_tag` maps
`Success` to `Ok` and the two failures to the descriptive messages. -/
theorem c2_close_tag_algorithm :
    (∀ tag child name c, Html.close_tag_aux child name = (c, .Full) →
      tag.name = name →
      Html.close_tag_aux (.Tag tag .Opened child) name = (.Tag tag .Closed c, .Success)) ∧
    (∀ tag child name c, Html.close_tag_aux child name = (c, .Full) →
      tag.name ≠ name →
      Html.close_tag_aux (.Tag tag .Opened child) name =
        (.Tag ⟨"", tag.attrs⟩ .Opened c, .WrongName tag.name)) ∧
    (∀ tag child name c, Html.close_tag_aux child name = (c, .Success) →
      Html.close_tag_aux (.Tag tag .Opened child) name = (.Tag tag .Opened c, .Success)) ∧
    (∀ tag child name c e, Html.close_tag_aux child name = (c, .WrongName e) →
      Html.close_tag_aux (.Tag tag .Opened child) name = (.Tag tag .Opened c, .WrongName e)) ∧
    (∀ name, Html.close_tag_aux (.Vec []) name = (.Vec [], .Full)) ∧
    (∀ xs x name, Html.close_tag_aux (.Vec (xs ++ [x])) name =
      (.Vec (xs ++ [(Html.close_tag_aux x name).1]), (Html.close_tag_aux x name).2)) ∧
    (∀ name, Html.close_tag_aux .Empty name = (.Empty, .Full)) ∧
    (∀ s name, Html.close_tag_aux (.Text s) name = (.Text s, .Full)) ∧
    (∀ n a name, Html.close_tag_aux (.Document n a) name = (.Document n a, .Full)) ∧
    (∀ content f name, Html.close_tag_aux (.Comment content f) name =
      (.Comment content f, .Full)) ∧
    (∀ tag child name, Html.close_tag_aux (.Tag tag .Closed child) name =
      (.Tag tag .Closed child, .Full)) ∧
    (∀ tag child name, Html.close_tag_aux (.Tag tag .SelfClosing child) name =
      (.Tag tag .SelfClosing child, .Full)) ∧
    (∀ t name, (Html.close_tag_aux t name).2 = .Success →
      Html.close_tag t name = ((Html.close_tag_aux t name).1, .ok ())) ∧
    (∀ t name, (Html.close_tag_aux t name).2 = .Full →
      Html.close_tag t name = ((Html.close_tag_aux t name).1,
        .error ("Invalid closing tag: Found closing tag for " ++ Html.sq ++ name ++
          Html.sq ++ " but all tags are already closed."))) ∧
    (∀ t name e, (Html.close_tag_aux t name).2 = .WrongName e →
      Html.close_tag t name = ((Html.close_tag_aux t name).1,
        .error ("Invalid closing tag: Found closing tag for " ++ Html.sq ++ name ++
          Html.sq ++ " but " ++ Html.sq ++ e ++ Html.sq ++ " is still open."))) := by
  refine ⟨?_, ?_, ?_, ?_, fun name => rfl, ?_, fun name => rfl, fun s name => rfl,
    fun n a name => rfl, fun content f name => rfl, fun tag child name => rfl,
    fun tag child name => rfl, ?_, ?_, ?_⟩
  · intro tag child name c h he
    simp [Html.close_tag_aux, h, he]
  · intro tag child name c h hne
    simp [Html.close_tag_aux, h, hne]
  · intro tag child name c h
    simp [Html.close_tag_aux, h]
  · intro tag child name c e h
    simp [Html.close_tag_aux, h]
  · intro xs x name
    rw [show Html.close_tag_aux (.Vec (xs ++ [x])) name =
        (match Html.close_tag_aux_last (xs ++ [x]) name with
          | (ys, st) => (.Vec ys, st)) from rfl,
      close_tag_aux_last_append]
  · intro t name h
    rcases haux : Html.close_tag_aux t name with ⟨u, st⟩
    rw [haux] at h
    cases st <;> simp_all [Html.close_tag, haux]
  · intro t name h
    rcases haux : Html.close_tag_aux t name with ⟨u, st⟩
    rw [haux] at h
    cases st <;> simp_all [Html.close_tag, haux]
  · intro t name e h
    rcases haux : Html.close_tag_aux t name with ⟨u, st⟩
    rw [haux] at h
    cases st <;> simp_all [Html.close_tag, haux]

/-- Witness for C2: closing `a` on a single open `a` tag over an empty
child succeeds and marks it `Closed`. -/
theorem c2_close_tag_algorithm_witness :
    Html.close_tag_aux (.Tag ⟨"a", ""⟩ .Opened .Empty) "a" =
      (.Tag ⟨"a", ""⟩ .Closed .Empty, .Success) :=
  c2_close_tag_algorithm.1 ⟨"a", ""⟩ .Empty "a" .Empty rfl rfl

/-- C5: in every tree reachable from `Empty` by driver operations, every
`Vec` (`Sequence`) holds at least two elements and no element of a `Vec` is
itself a `Vec`. -/
theorem c5_sequence_invariant :
    ∀ t : Html, Reachable t → Html.wf_seq t = true := by
  intro t ⟨ops, hops⟩
  exact run_preserves (fun u => Html.wf_seq u = true) rfl wf_apply_op ops t hops

/-- Witness for C5: three text segments interleaved with two distinct
self-closing tags, as in the spec's test sketch. -/
theorem c5_sequence_invariant_witness :
    Html.wf_seq (.Vec [.Text "a", .Tag ⟨"b", ""⟩ .SelfClosing .Empty, .Text "c",
      .Tag ⟨"i", ""⟩ .SelfClosing .Empty, .Text "e"]) = true :=
  c5_sequence_invariant _
    ⟨[Op.AppendChar 'a', Op.OpenTag ⟨"b", ""⟩ true, Op.AppendChar 'c',
      Op.OpenTag ⟨"i", ""⟩ true, Op.AppendChar 'e'], rfl⟩

/-- C6: every reachable tree satisfies the fringe invariant — in every
`Vec` all elements except possibly the last are inert, and consequently
there is at most one open path from the root (through `Opened` tags,
optionally ending in an open comment) — and each of the five operations
preserves the invariant. -/
theorem c6_fringe_invariant :
    (∀ t : Html, Reachable t →
      Html.fringe_inv t = true ∧ Html.open_path_count t ≤ 1) ∧
    (∀ (t : Html) (op : Op) (u : Html), Html.fringe_inv t = true →
      apply_op t op = some u → Html.fringe_inv u = true) := by
  constructor
  · intro t ⟨ops, hops⟩
    have hf : Html.fringe_inv t = true :=
      run_preserves (fun u => Html.fringe_inv u = true) rfl fringe_apply_op ops t hops
    exact ⟨hf, fringe_count t hf⟩
  · exact fringe_apply_op

/-- Witness for C6: an open `div` with text inside is reachable, satisfies
the fringe invariant and has exactly one open path. -/
theorem c6_fringe_invariant_witness :
    Html.fringe_inv (.Tag ⟨"div", ""⟩ .Opened (.Text "x")) = true ∧
      Html.open_path_count (.Tag ⟨"div", ""⟩ .Opened (.Text "x")) ≤ 1 :=
  c6_fringe_invariant.1 _ ⟨[Op.OpenTag ⟨"div", ""⟩ false, Op.AppendChar 'x'], rfl⟩

/-- C9: `close_comment` sets `full` on an open comment and reports success;
on a full comment, on `Text`, `Empty` or `Document` it reports failure; on a
`Vec` it recurses into the last element (failure when empty); on a `Tag` it
recurses into the child exactly when the tag is `Opened`; and whenever it
reports failure the tree — hence also its rendering — is unchanged. -/
theorem c9_close_comment_contract :
    (∀ c, Html.close_comment (.Comment c false) = (.Comment c true, true)) ∧
    (∀ c, Html.close_comment (.Comment c true) = (.Comment c true, false)) ∧
    (∀ s, Html.close_comment (.Text s) = (.Text s, false)) ∧
    (Html.close_comment .Empty = (.Empty, false)) ∧
    (∀ n a, Html.close_comment (.Document n a) = (.Document n a, false)) ∧
    (Html.close_comment (.Vec []) = (.Vec [], false)) ∧
    (∀ xs x, Html.close_comment (.Vec (xs ++ [x])) =
      (.Vec (xs ++ [(Html.close_comment x).1]), (Html.close_comment x).2)) ∧
    (∀ tag child, Html.close_comment (.Tag tag .Opened child) =
      (.Tag tag .Opened (Html.close_comment child).1, (Html.close_comment child).2)) ∧
    (∀ tag child, Html.close_comment (.Tag tag .Closed child) =
      (.Tag tag .Closed child, false)) ∧
    (∀ tag child, Html.close_comment (.Tag tag .SelfClosing child) =
      (.Tag tag .SelfClosing child, false)) ∧
    (∀ t, (Html.close_comment t).2 = false →
      (Html.close_comment t).1 = t ∧
        Html.render (Html.close_comment t).1 = Html.render t) := by
  refine ⟨fun c => rfl, fun c => rfl, fun s => rfl, rfl, fun n a => rfl, rfl,
    ?_, ?_, fun tag child => rfl, fun tag child => rfl, ?_⟩
  · intro xs x
    rw [show Html.close_comment (.Vec (xs ++ [x])) =
        (match Html.close_comment_last (xs ++ [x]) with
          | (ys, b) => (.Vec ys, b)) from rfl,
      close_comment_last_append]
  · intro tag child
    rcases h : Html.close_comment child with ⟨c, b⟩
    simp [Html.close_comment, TagType.is_open, h]
  · intro t h
    have h1 := close_comment_unchanged_of_false t h
    exact ⟨h1, by rw [h1]⟩

/-- Witness for C9: closing the comment of `<!--x-->` a second time fails
and leaves the tree unchanged. -/
theorem c9_close_comment_contract_witness :
    (Html.close_comment (.Comment "x" true)).1 = .Comment "x" true ∧
      Html.render (Html.close_comment (.Comment "x" true)).1 =
        Html.render (.Comment "x" true) :=
  c9_close_comment_contract.2.2.2.2.2.2.2.2.2.2 (.Comment "x" true) rfl

/-- C8: the exact per-variant rendering contract of the `Display`
implementation. -/
theorem c8_render_contract :
    (Html.render .Empty = "") ∧
    (∀ s, Html.render (.Text s) = s) ∧
    (∀ tag child, Html.render (.Tag tag .Closed child) =
      "<" ++ Tag.display tag ++ ">" ++ Html.render child ++ "</" ++ tag.name ++ ">") ∧
    (∀ tag child, Html.render (.Tag tag .Opened child) =
      "<" ++ Tag.display tag ++ ">" ++ Html.render child) ∧
    (∀ tag child, Html.render (.Tag tag .SelfClosing child) =
      "<" ++ Tag.display tag ++ " />") ∧
    (Html.render (.Document "" none) = "<!>") ∧
    (∀ dname, dname ≠ "" → Html.render (.Document dname none) = "<!" ++ dname ++ " >") ∧
    (∀ dname attr, Html.render (.Document dname (some attr)) =
      "<!" ++ dname ++ " " ++ attr ++ ">") ∧
    (∀ c, Html.render (.Comment c true) = "<!--" ++ c ++ "-->") ∧
    (∀ c, Html.render (.Comment c false) = "<!--" ++ c) ∧
    (∀ xs, Html.render (.Vec xs) = String.join (xs.map Html.render)) := by
  refine ⟨rfl, fun s => rfl, fun tag child => rfl, fun tag child => rfl,
    fun tag child => rfl, rfl, ?_, fun dname attr => rfl, fun c => rfl,
    fun c => by simp [Html.render], ?_⟩
  · intro dname h
    simp [Html.render, String.isEmpty_iff, h]
  · intro xs
    rw [show Html.render (.Vec xs) = Html.render_list xs from rfl,
      render_list_join]

/-- Witness for C8: the non-empty-name, no-attribute document declaration
renders with the trailing space. -/
theorem c8_render_contract_witness :
    Html.render (.Document "doctype" none) = "<!" ++ "doctype" ++ " >" :=
  c8_render_contract.2.2.2.2.2.2.1 "doctype" (by decide)

theorem push_node_comment_target :
    (∀ t : Html, ∀ node,
      (Html.comment_target t = true → Html.push_node t node = none) ∧
      (Html.comment_target t = false → (Html.push_node t node).isSome = true)) ∧
    (∀ l : List Html, ∀ node,
      (Html.comment_target_last l = true → Html.push_node_last l node = none) ∧
      (Html.comment_target_last l = false → (Html.push_node_last l node).isSome = true)) := by
  refine Html.joint_induction _ _ ?_ ?_ ?_ ?_ ?_ ?_ ?_ ?_
  · intro c f node
    refine ⟨fun _ => rfl, fun h => ?_⟩
    simp [Html.comment_target] at h
  · intro n a node
    refine ⟨fun h => ?_, fun _ => rfl⟩
    simp [Html.comment_target] at h
  · intro node
    refine ⟨fun h => ?_, fun _ => rfl⟩
    simp [Html.comment_target] at h
  · intro tag full child ih node
    cases full with
    | Opened =>
        constructor
        · intro h
          have h1 := (ih node).1 (by simpa [Html.comment_target] using h)
          simp [Html.push_node, h1]
        · intro h
          have h1 := (ih node).2 (by simpa [Html.comment_target] using h)
          simpa [Html.push_node] using h1
    | Closed =>
        refine ⟨fun h => ?_, fun _ => rfl⟩
        simp [Html.comment_target] at h
    | SelfClosing =>
        refine ⟨fun h => ?_, fun _ => rfl⟩
        simp [Html.comment_target] at h
  · intro s node
    refine ⟨fun h => ?_, fun _ => rfl⟩
    simp [Html.comment_target] at h
  · intro xs ihl node
    constructor
    · intro h
      have h1 := (ihl node).1 (by simpa [Html.comment_target] using h)
      simp [Html.push_node, h1]
    · intro h
      have h1 := (ihl node).2 (by simpa [Html.comment_target] using h)
      simpa [Html.push_node] using h1
  · intro node
    exact ⟨fun h => by simp [Html.comment_target_last] at h, fun _ => rfl⟩
  · intro x l ihx ihl node
    rcases l with _ | ⟨y, rest⟩
    · constructor
      · intro h
        rw [Html.comment_target_last, Bool.and_eq_true] at h
        have h1 := (ihx node).1 h.2
        simp [Html.push_node_last, h.1, h1]
      · intro h
        rw [Html.comment_target_last] at h
        cases hp : x.is_pushable false with
        | false => simp [Html.push_node_last, hp]
        | true =>
            rw [hp] at h
            have h1 := (ihx node).2 (by simpa using h)
            simpa [Html.push_node_last, hp] using h1
    · constructor
      · intro h
        have h1 := (ihl node).1 (by simpa [Html.comment_target_last] using h)
        simp [Html.push_node_last, h1]
      · intro h
        have h1 := (ihl node).2 (by simpa [Html.comment_target_last] using h)
        simpa [Html.push_node_last] using h1

theorem is_comment_pushable_target :
    (∀ t : Html, Html.is_comment t = true →
      Html.is_pushable t false = true ∧ Html.comment_target t = true) ∧
    (∀ l : List Html, Html.is_comment_last l = true →
      Html.comment_target_last l = true) := by
  refine Html.joint_induction _ _ ?_ ?_ ?_ ?_ ?_ ?_ ?_ ?_
  · intro c f h
    rw [Html.is_comment] at h
    simp only [Bool.not_eq_eq_eq_not, Bool.not_true] at h
    subst h
    exact ⟨rfl, rfl⟩
  · intro n a h
    simp [Html.is_comment] at h
  · intro h
    simp [Html.is_comment] at h
  · intro tag full child ih h
    rw [Html.is_comment, Bool.and_eq_true] at h
    cases full with
    | Opened =>
        refine ⟨rfl, ?_⟩
        simpa [Html.comment_target] using (ih h.2).2
    | Closed => simp [TagType.is_open] at h
    | SelfClosing => simp [TagType.is_open] at h
  · intro s h
    simp [Html.is_comment] at h
  · intro xs ihl h
    rw [Html.is_comment] at h
    exact ⟨rfl, by simpa [Html.comment_target] using ihl h⟩
  · intro h
    simp [Html.is_comment_last] at h
  · intro x l ihx ihl h
    rcases l with _ | ⟨y, rest⟩
    · have h1 := ihx (by simpa [Html.is_comment_last] using h)
      simp [Html.comment_target_last, h1.1, h1.2]
    · have h1 := ihl (by simpa [Html.is_comment_last] using h)
      simpa [Html.comment_target_last] using h1

/-- C3: when `push_node` lands on a `Comment` node — open or terminated,
e.g. the root tree after one comment has been opened and closed — it hits
the `safe_unreachable!` fault (`none`), for the tag-opening and
comment-opening insertions alike, even though `push_char` in the same state
promotes the terminated comment into a two-element `Vec` with a fresh
`Text` sibling.  The final conjunct pins the fault down exactly: `push_node`
faults precisely when its own descent (`comment_target`) ends on a
`Comment` node of either fullness. -/
theorem c3_push_node_comment_fault :
    (∀ c full node, Html.push_node (.Comment c full) node = none) ∧
    (∀ c ch, Html.push_char (.Comment c true) ch =
      .Vec [.Comment c true, Html.from_char ch]) ∧
    (run [Op.OpenComment, Op.CloseComment] = some (.Comment "" true)) ∧
    (∀ tag inline, Html.push_tag (.Comment "" true) tag inline = none) ∧
    (Html.push_comment (.Comment "" true) = none) ∧
    (∀ t node, Html.push_node t node = none ↔ Html.comment_target t = true) := by
  refine ⟨fun _ _ _ => rfl, fun _ _ => rfl, rfl, fun _ _ => rfl, rfl, ?_⟩
  intro t node
  constructor
  · intro h
    cases hct : Html.comment_target t with
    | true => rfl
    | false =>
        have h1 := (push_node_comment_target.1 t node).2 hct
        rw [h] at h1
        simp at h1
  · intro h
    exact (push_node_comment_target.1 t node).1 h

/-- C4 counterexample: the stated precondition (the fringe does not end in
an OPEN comment) does not make the `Comment` branch of `push_node`
unreachable — a terminated comment at the root has `is_comment = false`,
yet opening a comment or a tag there still hits the fault. -/
theorem c4_terminated_comment_counterexample :
    Html.is_comment (.Comment "" true) = false ∧
    Html.push_comment (.Comment "" true) = none ∧
    Html.push_tag (.Comment "" true) ⟨"div", ""⟩ false = none ∧
    run [Op.OpenComment, Op.CloseComment, Op.OpenTag ⟨"div", ""⟩ false] = none :=
  ⟨rfl, rfl, rfl, rfl⟩

/-- C4 as amended: the precondition must be that `push_node`'s descent does
not land on any `Comment` node, open or terminated (`comment_target`
false); under it `push_node` always returns a tree.  And whenever a comment
is still open on the fringe, opening a comment (or a tag) is an
unconditional internal-invariant fault — `none`, never a returned error
value. -/
theorem c4_comment_branch_guard :
    (∀ t node, Html.comment_target t = false →
      (Html.push_node t node).isSome = true) ∧
    (∀ t, Html.is_comment t = true → Html.push_comment t = none) ∧
    (∀ t tag inline, Html.is_comment t = true → Html.push_tag t tag inline = none) := by
  refine ⟨fun t node h => (push_node_comment_target.1 t node).2 h, ?_, ?_⟩
  · intro t h
    exact (push_node_comment_target.1 t _).1 (is_comment_pushable_target.1 t h).2
  · intro t tag inline h
    exact (push_node_comment_target.1 t _).1 (is_comment_pushable_target.1 t h).2

/-- Witness for C4 (amended): pushing a tag beside a text root succeeds;
opening a comment inside an open comment faults. -/
theorem c4_comment_branch_guard_witness :
    (Html.push_node (.Text "a") (.Tag ⟨"b", ""⟩ .Opened .Empty)).isSome = true ∧
    Html.push_comment (.Comment "" false) = none :=
  ⟨c4_comment_branch_guard.1 (.Text "a") _ rfl,
    c4_comment_branch_guard.2.1 (.Comment "" false) rfl⟩

/-- C10: `push_tag` with `inline = true` inserts `Tag{SelfClosing}` with an
`Empty` child; appending a character to a self-closing tag starts a new
`Text` sibling in a two-element `Vec` instead of descending; the `br`
example renders `<br />x`. -/
theorem c10_selfclosing_sibling :
    (∀ t tag, Html.push_tag t tag true =
      Html.push_node t (.Tag tag .SelfClosing .Empty)) ∧
    (∀ tag child ch, Html.push_char (.Tag tag .SelfClosing child) ch =
      .Vec [.Tag tag .SelfClosing child, Html.from_char ch]) ∧
    ((run [Op.OpenTag ⟨"br", ""⟩ true, Op.AppendChar 'x']).map Html.render =
      some "<br />x") :=
  ⟨fun _ _ => rfl, fun _ _ _ => rfl, rfl⟩
